import Mathlib

/-!
Verification development for the go-concurrency-limits partitioned admission engine.

The repository provides `strategy/matchers/string.go` (the string predicate matcher)
and the conformance tests `limit/settable_test.go` / `strategy/predicate_partition`
tests.  The implementations of `SettableLimit`, `PredicatePartition` and
`PredicatePartitionStrategy` are not part of the available sources, so they are
modelled from the specification, with the conformance tests as the authority on
observable behaviour.  All machine integers are modelled as `Nat`/`Int`
(no overflow is relevant at the scales exercised), partition shares as exact
rationals.
-/

deriving instance DecidableEq for Except

set_option maxRecDepth 200000

namespace ConcurrencyLimits

/-- Round-half-up rounding of a rational to an integer, the rounding the spec
prescribes to derive a partition's bin limit from its percent share
(`round(percent * totalLimit)`).  For the non-negative values that arise here
it agrees with Go's `math.Round` (half away from zero). -/
def roundHalfUp (q : ℚ) : ℤ :=
  ⌊q + 1/2⌋

/-- Round-half-up of `q * n`, computed on the rational's numerator and
denominator with integer arithmetic:
`⌊q·n + 1/2⌋ = ⌊(2·num·n + den) / (2·den)⌋`.  (`/` on `ℤ` is Euclidean
division, which is floor division for the positive divisor `2·den`.) -/
def roundHalfUpMul (q : ℚ) (n : ℕ) : ℤ :=
  (2 * q.num * n + q.den) / (2 * q.den)

/-- A value stored in a request context under the string-predicate context key.
It is either a string or some value of another type (`nonString`, tagged so that
distinct non-string values exist). -/
inductive CtxValue where
  | str (s : String)
  | nonString (tag : ℕ)
deriving DecidableEq

/-- The request context as seen by this engine.  `src/strategy/matchers/string.go`
reads exactly one well-known key (`StringPredicateContextKey`) from the Go
`context.Context`; the embedding therefore records only the value stored under
that key, `none` when the key is absent. -/
structure Context where
  stringPredicateValue : Option CtxValue
deriving DecidableEq

/-- Embedding of `StringPredicateMatcher` from `src/strategy/matchers/string.go`:
look up the string-predicate key; if present and a string, compare (case
insensitively when requested) with `matchString`; otherwise return `false`. -/
def StringPredicateMatcher (matchString : String) (caseInsensitive : Bool) :
    Context → Bool :=
  fun ctx =>
    match ctx.stringPredicateValue with
    | some (CtxValue.str strVal) =>
      if caseInsensitive then strVal.toLower == matchString.toLower
      else strVal == matchString
    | some (CtxValue.nonString _) => false
    | none => false

/-- Modelled from the spec: the `measurements` package (`ImmutableSampleWindow`)
is not under `src/`; only its use in the `SettableLimit` test is.  Fields follow
§3 of the spec; the running RTT sum is stored so that the average is exact. -/
structure ImmutableSampleWindow where
  minRTT : ℤ
  maxRTT : ℤ
  sumRTT : ℤ
  sampleCount : ℕ
  droppedCount : ℕ
  maxInFlight : ℕ
deriving DecidableEq

/-- Modelled from the spec: fresh, empty sample window (`NewDefaultImmutableSampleWindow`). -/
def NewDefaultImmutableSampleWindow : ImmutableSampleWindow :=
  { minRTT := 0, maxRTT := 0, sumRTT := 0, sampleCount := 0, droppedCount := 0
    maxInFlight := 0 }

/-- Modelled from the spec: `AddSample(rtt, inFlight)` returns a window with
`sampleCount+1`, RTT extrema/sum updated and `maxInFlight` raised. -/
def ImmutableSampleWindow.AddSample (w : ImmutableSampleWindow) (rtt : ℤ)
    (inFlight : ℕ) : ImmutableSampleWindow :=
  { w with
    minRTT := if w.sampleCount = 0 then rtt else min w.minRTT rtt
    maxRTT := if w.sampleCount = 0 then rtt else max w.maxRTT rtt
    sumRTT := w.sumRTT + rtt
    sampleCount := w.sampleCount + 1
    maxInFlight := max w.maxInFlight inFlight }

/-- Modelled from the spec: `AddDroppedSample(inFlight)` returns a window with
`droppedCount+1` and `maxInFlight` raised; RTT statistics are untouched. -/
def ImmutableSampleWindow.AddDroppedSample (w : ImmutableSampleWindow)
    (inFlight : ℕ) : ImmutableSampleWindow :=
  { w with
    droppedCount := w.droppedCount + 1
    maxInFlight := max w.maxInFlight inFlight }

/-- Modelled from the spec: the `limit/settable.go` implementation of the manual
(`Settable`) limit is not under `src/`; only its test is.  The state is the
current limit, kept ≥ 1 at all times (§3: "implementations must clamp upward
to 1"). -/
structure SettableLimit where
  limit : ℤ
deriving DecidableEq

/-- Modelled from the spec: `NewSettableLimit` stores the initial limit, clamped
up to 1 to keep the `currentLimit ≥ 1` invariant. -/
def NewSettableLimit (l : ℤ) : SettableLimit :=
  { limit := max l 1 }

/-- Modelled from the spec: `EstimatedLimit()` is a pure read of the current limit. -/
def SettableLimit.EstimatedLimit (s : SettableLimit) : ℤ :=
  s.limit

/-- Modelled from the spec: `SetLimit(n)` is the only mutator, "clamping `n` up
to 1 if given a smaller or non-positive value". -/
def SettableLimit.SetLimit (_s : SettableLimit) (n : ℤ) : SettableLimit :=
  { limit := max n 1 }

/-- Modelled from the spec: for the manual variant, "`Update` ignores the window
and returns the unchanged current value".  The pair is the post-state together
with the returned ceiling. -/
def SettableLimit.Update (s : SettableLimit) (_w : ImmutableSampleWindow) :
    SettableLimit × ℤ :=
  (s, s.limit)

/-- Modelled from the spec: debug form `SettableLimit{limit=<n>}` (§6). -/
def SettableLimit.toDebugString (s : SettableLimit) : String :=
  "SettableLimit\x7blimit=" ++ toString s.limit ++ "\x7d"

/-- Modelled from the spec: the `strategy/predicate_partition.go` implementation
of `PredicatePartition` is not under `src/`; only its tests are.  A partition
holds its name, its share of the total limit, its matcher predicate (`none`
models a nil Go matcher), its derived bin limit and its busy count (§3). -/
structure PredicatePartition where
  name : String
  percent : ℚ
  matcher : Option (Context → Bool)
  limit : ℕ
  busy : ℕ

/-- Modelled from the spec: `NewPredicatePartitionWithMetricRegistry` builds a
partition with busy count 0; the initial bin limit is 1 (the "partitions" test
prints `limit=1` on a freshly built partition, and the derived limit is ≥ 1).
The metric registry is a no-op sink, out of scope for correctness (§6). -/
def NewPredicatePartition (name : String) (percent : ℚ)
    (matcher : Option (Context → Bool)) : PredicatePartition :=
  { name := name, percent := percent, matcher := matcher, limit := 1, busy := 0 }

/-- Modelled from the spec: derived bin limit `max(1, round(percent * totalLimit))` (§3). -/
def computeBinLimit (percent : ℚ) (totalLimit : ℕ) : ℕ :=
  (max 1 (roundHalfUpMul percent totalLimit)).toNat

/-- Modelled from the spec: `UpdateLimit(totalLimit)` recomputes the derived bin
limit; nothing else changes (§4.3). -/
def PredicatePartition.UpdateLimit (p : PredicatePartition) (totalLimit : ℕ) :
    PredicatePartition :=
  { p with limit := computeBinLimit p.percent totalLimit }

/-- Modelled from the spec: `IsLimitExceeded()` is `busy ≥ limit` (§4.3). -/
def PredicatePartition.IsLimitExceeded (p : PredicatePartition) : Bool :=
  decide (p.limit ≤ p.busy)

/-- Modelled from the spec: `Acquire()` increments the busy count (§4.3). -/
def PredicatePartition.acquire (p : PredicatePartition) : PredicatePartition :=
  { p with busy := p.busy + 1 }

/-- Modelled from the spec: `Release()` decrements the busy count, floor-clamped
at 0 (§4.3); `Nat` subtraction gives the clamp. -/
def PredicatePartition.release (p : PredicatePartition) : PredicatePartition :=
  { p with busy := p.busy - 1 }

/-- Evaluate a partition's matcher on a request context; a missing (nil) matcher
never matches.  (Constructed strategies never contain a missing matcher.) -/
def PredicatePartition.matches (p : PredicatePartition) (ctx : Context) : Bool :=
  match p.matcher with
  | some m => m ctx
  | none => false

/-- Left-pad a string with zeros to length `n`. -/
def padZeros (s : String) (n : ℕ) : String :=
  if s.length < n then String.mk (List.replicate (n - s.length) '0') ++ s else s

/-- Print a non-negative rational with 6 decimal digits, as Go's `%f` does for
the partition percent. -/
def formatPercent6 (q : ℚ) : String :=
  let scaled := (roundHalfUpMul q 1000000).toNat
  toString (scaled / 1000000) ++ "." ++ padZeros (toString (scaled % 1000000)) 6

/-- Modelled from the spec: partition debug form
`PredicatePartition{name=<name>, percent=<percent>, limit=<limit>, busy=<busy>}`
with percent printed to 6 decimal digits (§4.3). -/
def PredicatePartition.toDebugString (p : PredicatePartition) : String :=
  "PredicatePartition\x7bname=" ++ p.name ++ ", percent=" ++ formatPercent6 p.percent
    ++ ", limit=" ++ toString p.limit ++ ", busy=" ++ toString p.busy ++ "\x7d"

/-- Modelled from the spec: the `PredicatePartitionStrategy` implementation is
not under `src/`; only its tests are.  State per §3: the fixed partition list,
the total limit (clamped ≥ 1) and the incrementally maintained aggregate busy
count. -/
structure PredicatePartitionStrategy where
  partitions : List PredicatePartition
  limit : ℕ
  busy : ℕ

/-- Sum of the partitions' percent shares as one unreduced fraction
`(numerator, denominator)`, computed with integer arithmetic; the denominator
is the (positive) product of the partitions' denominators. -/
def sumFrac : List PredicatePartition → ℤ × ℤ
  | [] => (0, 1)
  | p :: rest =>
    let s := sumFrac rest
    (p.percent.num * s.2 + s.1 * (p.percent.den : ℤ), (p.percent.den : ℤ) * s.2)

/-- Modelled from the spec: construction validates the configuration — empty
partition list, a missing matcher, a percent outside `(0,1]` or percents
summing above 1 are configuration errors (§4.4); on success the initial total
limit (clamped up to 1) is stored and every partition's bin limit derived from
it.  The sum check `Σ percent > 1` is evaluated on the exact fraction
`sumFrac parts` (numerator > denominator). -/
def NewPredicatePartitionStrategy (parts : List PredicatePartition) (limit : ℤ) :
    Except String PredicatePartitionStrategy :=
  if parts.isEmpty then
    Except.error "PredicatePartitionStrategy: no partitions specified"
  else if parts.any (fun p => p.matcher.isNone) then
    Except.error "PredicatePartitionStrategy: partition matcher missing"
  else if parts.any (fun p => decide (p.percent ≤ 0 ∨ 1 < p.percent)) then
    Except.error "PredicatePartitionStrategy: invalid partition percent"
  else if (sumFrac parts).2 < (sumFrac parts).1 then
    Except.error "PredicatePartitionStrategy: sum of percents exceeds 1"
  else
    Except.ok
      { partitions := parts.map (fun p => p.UpdateLimit (max limit 1).toNat)
        limit := (max limit 1).toNat
        busy := 0 }

/-- Modelled from the spec: `SetLimit(n)` clamps `n` up to 1, stores it as the
total limit and recomputes every partition's bin limit in order; busy counts
are untouched (§4.4). -/
def PredicatePartitionStrategy.SetLimit (s : PredicatePartitionStrategy) (n : ℤ) :
    PredicatePartitionStrategy :=
  { partitions := s.partitions.map (fun p => p.UpdateLimit (max n 1).toNat)
    limit := (max n 1).toNat
    busy := s.busy }

/-- Modelled from the spec: `Limit()` returns the total limit. -/
def PredicatePartitionStrategy.Limit (s : PredicatePartitionStrategy) : ℕ :=
  s.limit

/-- Modelled from the spec: `BusyCount()` returns the incrementally maintained
aggregate busy count. -/
def PredicatePartitionStrategy.BusyCount (s : PredicatePartitionStrategy) : ℕ :=
  s.busy

/-- Modelled from the spec: `BinLimit(i)` returns the i-th partition's bin
limit, an index error when out of range (§4.4). -/
def PredicatePartitionStrategy.BinLimit (s : PredicatePartitionStrategy) (i : ℕ) :
    Except String ℕ :=
  match s.partitions[i]? with
  | some p => Except.ok p.limit
  | none => Except.error "PredicatePartitionStrategy: index out of range"

/-- Modelled from the spec: `BinBusyCount(i)` returns the i-th partition's busy
count, an index error when out of range (§4.4). -/
def PredicatePartitionStrategy.BinBusyCount (s : PredicatePartitionStrategy)
    (i : ℕ) : Except String ℕ :=
  match s.partitions[i]? with
  | some p => Except.ok p.busy
  | none => Except.error "PredicatePartitionStrategy: index out of range"

/-- A strategy token: the receipt of an admission, recording whether it is held
and which partition it charges (§3). -/
structure StrategyToken where
  acquired : Bool
  partitionIndex : ℕ
deriving DecidableEq

/-- First partition (with its index) whose matcher accepts the context, in list
order (§4.4 step 1). -/
def firstMatch : List PredicatePartition → Context → Option (ℕ × PredicatePartition)
  | [], _ => none
  | p :: rest, ctx =>
    if p.matches ctx then some (0, p)
    else (firstMatch rest ctx).map (fun x => (x.1 + 1, x.2))

/-- Apply `f` to the element at position `i` of a list, when it exists. -/
def modifyIdx (f : α → α) : List α → ℕ → List α
  | [], _ => []
  | a :: rest, 0 => f a :: rest
  | a :: rest, n + 1 => a :: modifyIdx f rest n

/-- Modelled from the spec: `TryAcquire(ctx)` classifies the request into the
first matching partition; no match is a rejection with no token and no state
change.  A matched request is rejected exactly when the matched partition has
reached its own bin limit AND the aggregate busy count has reached the total
limit; otherwise the partition's and the strategy's busy counts are incremented
and an acquired token is returned.  (The spec's §4.4 prose and the conformance
tests disagree on the global check; the tests under `src/` are the authority:
`ExceedTotalLimitForUnusedBin` admits a request on a non-saturated partition
while the aggregate busy count already equals the total limit.) -/
def PredicatePartitionStrategy.TryAcquire (s : PredicatePartitionStrategy)
    (ctx : Context) : PredicatePartitionStrategy × Option StrategyToken :=
  match firstMatch s.partitions ctx with
  | none => (s, none)
  | some (i, p) =>
    if p.limit ≤ p.busy ∧ s.limit ≤ s.busy then (s, none)
    else
      ({ partitions := modifyIdx PredicatePartition.acquire s.partitions i
         limit := s.limit
         busy := s.busy + 1 },
       some { acquired := true, partitionIndex := i })

/-- Modelled from the spec: releasing a token held on partition `i` decrements
that partition's busy count and the aggregate busy count by exactly one; on a
zero-busy partition (which a correctly used token never hits) it is a defensive
no-op, preserving the §3 invariant `busyCount = Σ busy`. -/
def PredicatePartitionStrategy.Release (s : PredicatePartitionStrategy) (i : ℕ) :
    PredicatePartitionStrategy :=
  match s.partitions[i]? with
  | some p =>
    if 0 < p.busy then
      { partitions := modifyIdx PredicatePartition.release s.partitions i
        limit := s.limit
        busy := s.busy - 1 }
    else s
  | none => s

/-- Modelled from the spec: strategy debug form
`PredicatePartitionStrategy{partitions=[<p0> <p1> ...], limit=<totalLimit>, busy=<busyCount>}`
using each partition's own debug string, as pinned by the `NewPredicatePartition`
conformance test. -/
def PredicatePartitionStrategy.toDebugString (s : PredicatePartitionStrategy) :
    String :=
  "PredicatePartitionStrategy\x7bpartitions=["
    ++ String.intercalate " " (s.partitions.map PredicatePartition.toDebugString)
    ++ "], limit=" ++ toString s.limit ++ ", busy=" ++ toString s.busy ++ "\x7d"

/-- One externally driven operation on a strategy, for stating trace invariants. -/
inductive Op where
  | tryAcquire (ctx : Context)
  | release (idx : ℕ)

/-- Apply one operation to a strategy state. -/
def applyOp (s : PredicatePartitionStrategy) : Op → PredicatePartitionStrategy
  | Op.tryAcquire ctx => (s.TryAcquire ctx).1
  | Op.release i => s.Release i

/-- Apply a sequence of operations, left to right. -/
def applyOps (s : PredicatePartitionStrategy) (ops : List Op) :
    PredicatePartitionStrategy :=
  ops.foldl applyOp s

/-- Sum of the partitions' busy counts. -/
def sumBusy (ps : List PredicatePartition) : ℕ :=
  (ps.map PredicatePartition.busy).sum

/-- The two test partitions: "batch" at 30% and "live" at 70%, with
case-sensitive string matchers, as in `makeTestPartitions` of the conformance
tests. -/
def makeTestPartitions : List PredicatePartition :=
  [NewPredicatePartition "batch" (mkRat 3 10) (some (StringPredicateMatcher "batch" false)),
   NewPredicatePartition "live" (mkRat 7 10) (some (StringPredicateMatcher "live" false))]

/-- The "batch" partition exactly as it sits inside `testStrategy1` (bin limit
1 derived from total limit 1). -/
def batchPartition1 : PredicatePartition :=
  { name := "batch", percent := mkRat 3 10
    matcher := some (StringPredicateMatcher "batch" false), limit := 1, busy := 0 }

/-- The "live" partition exactly as it sits inside `testStrategy1`. -/
def livePartition1 : PredicatePartition :=
  { name := "live", percent := mkRat 7 10
    matcher := some (StringPredicateMatcher "live" false), limit := 1, busy := 0 }

/-- The strategy the conformance tests build: the two test partitions with
initial total limit 1. -/
def testStrategy1 : PredicatePartitionStrategy :=
  match NewPredicatePartitionStrategy makeTestPartitions 1 with
  | Except.ok s => s
  | Except.error _ => { partitions := [], limit := 1, busy := 0 }

/-- The test strategy after `SetLimit(10)`. -/
def testStrategy10 : PredicatePartitionStrategy :=
  testStrategy1.SetLimit 10

/-- A request context classified "batch". -/
def ctxBatch : Context :=
  { stringPredicateValue := some (CtxValue.str "batch") }

/-- A request context classified "live". -/
def ctxLive : Context :=
  { stringPredicateValue := some (CtxValue.str "live") }

/-- Iterate `TryAcquire` with a fixed context `n` times, keeping the state. -/
def acquireN (s : PredicatePartitionStrategy) (ctx : Context) : ℕ → PredicatePartitionStrategy
  | 0 => s
  | n + 1 => ((acquireN s ctx n).TryAcquire ctx).1

/-- The test strategy at total limit 10 after 3 "batch" and 7 "live"
admissions: every partition is at its bin limit and the aggregate busy count is
at the total limit. -/
def fullState : PredicatePartitionStrategy :=
  acquireN (acquireN testStrategy10 ctxBatch 3) ctxLive 7

/-- A request context with no value under the string-predicate key. -/
def ctxNone : Context :=
  { stringPredicateValue := none }

/-- A request context with a non-string value under the string-predicate key. -/
def ctxWrongType : Context :=
  { stringPredicateValue := some (CtxValue.nonString 0) }

/-- A small explicit partition used to instantiate general theorems: one busy
token above its bin limit of 1. -/
def tinyPartition : PredicatePartition :=
  { name := "a", percent := mkRat 1 2
    matcher := some (StringPredicateMatcher "a" false), limit := 1, busy := 2 }

/-- A small explicit saturated strategy state used to instantiate general
theorems. -/
def tinyState : PredicatePartitionStrategy :=
  { partitions := [tinyPartition], limit := 2, busy := 2 }

/-- A request context matching `tinyPartition`. -/
def ctxA : Context :=
  { stringPredicateValue := some (CtxValue.str "a") }

/-- A short demonstration trace of operations. -/
def demoOps : List Op :=
  [Op.tryAcquire ctxBatch, Op.tryAcquire ctxLive, Op.tryAcquire ctxBatch,
   Op.release 0, Op.release 1, Op.tryAcquire ctxNone, Op.release 5]

/-- The integer-arithmetic bin-limit rounding computes exactly the spec's
round-half-up of `percent * totalLimit`. -/
theorem roundHalfUpMul_eq (q : ℚ) (n : ℕ) :
    roundHalfUpMul q n = roundHalfUp (q * n) := by
  have hden : (q.den : ℚ) ≠ 0 := Nat.cast_ne_zero.mpr q.den_nz
  have hq : (q.num : ℚ) = q * q.den :=
    (div_eq_iff hden).mp (Rat.num_div_den q)
  have key : (q * n + 1/2 : ℚ)
      = ((2 * q.num * n + (q.den : ℤ) : ℤ) : ℚ) / ((2 * q.den : ℕ) : ℚ) := by
    push_cast
    field_simp
    rw [hq]
    ring
  unfold roundHalfUp roundHalfUpMul
  rw [key, Rat.floor_intCast_div_natCast]
  push_cast
  rfl

/-- Matching depends only on the matcher field. -/
theorem matches_eq_of_matcher_eq {p q : PredicatePartition}
    (h : p.matcher = q.matcher) (ctx : Context) :
    p.matches ctx = q.matches ctx := by
  unfold PredicatePartition.matches
  rw [h]

/-- The partition returned by `firstMatch` sits at the returned index. -/
theorem firstMatch_getElem {ps : List PredicatePartition} {ctx : Context} {i : ℕ}
    {p : PredicatePartition} (h : firstMatch ps ctx = some (i, p)) :
    ps[i]? = some p := by
  induction ps generalizing i with
  | nil => simp [firstMatch] at h
  | cons q rest ih =>
    rw [firstMatch] at h
    by_cases hm : q.matches ctx
    · rw [if_pos hm] at h
      injection h with h1
      injection h1 with hi hp
      subst hi
      subst hp
      simp
    · rw [if_neg hm] at h
      cases hfm : firstMatch rest ctx with
      | none => rw [hfm] at h; simp at h
      | some x =>
        obtain ⟨j, pj⟩ := x
        rw [hfm] at h
        simp only [Option.map_some'] at h
        injection h with h1
        injection h1 with hi hp
        subst hi
        subst hp
        simpa using ih hfm

/-- `modifyIdx` applies `f` at the position it targets. -/
theorem getElem_modifyIdx_self {α : Type} (f : α → α) {ps : List α} {i : ℕ} {a : α}
    (h : ps[i]? = some a) :
    (modifyIdx f ps i)[i]? = some (f a) := by
  induction ps generalizing i with
  | nil => simp at h
  | cons b rest ih =>
    cases i with
    | zero =>
      simp at h
      subst h
      simp [modifyIdx]
    | succ n =>
      simp at h
      simpa [modifyIdx] using ih h

/-- `modifyIdx` with a busy increment adds exactly one to the busy sum. -/
theorem sumBusy_modifyIdx_acquire {ps : List PredicatePartition} {i : ℕ}
    {p : PredicatePartition} (h : ps[i]? = some p) :
    sumBusy (modifyIdx PredicatePartition.acquire ps i) = sumBusy ps + 1 := by
  induction ps generalizing i with
  | nil => simp at h
  | cons q rest ih =>
    cases i with
    | zero =>
      simp at h
      subst h
      simp [modifyIdx, sumBusy, PredicatePartition.acquire]
      omega
    | succ n =>
      simp at h
      have := ih h
      simp [modifyIdx, sumBusy] at this ⊢
      omega

/-- `modifyIdx` with a busy decrement removes exactly one from the busy sum
when the targeted partition is busy. -/
theorem sumBusy_modifyIdx_release {ps : List PredicatePartition} {i : ℕ}
    {p : PredicatePartition} (h : ps[i]? = some p) (hb : 0 < p.busy) :
    sumBusy (modifyIdx PredicatePartition.release ps i) + 1 = sumBusy ps := by
  induction ps generalizing i with
  | nil => simp at h
  | cons q rest ih =>
    cases i with
    | zero =>
      simp at h
      subst h
      simp [modifyIdx, sumBusy, PredicatePartition.release]
      omega
    | succ n =>
      simp at h
      have := ih h
      simp [modifyIdx, sumBusy] at this ⊢
      omega

/-- Modifying only busy counts at the matched index leaves the first match in
place, now pointing at the modified partition. -/
theorem firstMatch_modifyIdx {f : PredicatePartition → PredicatePartition}
    (hf : ∀ q, (f q).matcher = q.matcher) {ps : List PredicatePartition}
    {ctx : Context} {i : ℕ} {p : PredicatePartition}
    (h : firstMatch ps ctx = some (i, p)) :
    firstMatch (modifyIdx f ps i) ctx = some (i, f p) := by
  induction ps generalizing i with
  | nil => simp [firstMatch] at h
  | cons q rest ih =>
    rw [firstMatch] at h
    by_cases hm : q.matches ctx
    · rw [if_pos hm] at h
      injection h with h1
      injection h1 with hi hp
      subst hi
      subst hp
      rw [show modifyIdx f (q :: rest) 0 = f q :: rest from rfl, firstMatch,
        if_pos (by rw [matches_eq_of_matcher_eq (hf q)]; exact hm)]
    · rw [if_neg hm] at h
      cases hfm : firstMatch rest ctx with
      | none => rw [hfm] at h; simp at h
      | some x =>
        obtain ⟨j, pj⟩ := x
        rw [hfm] at h
        simp only [Option.map_some'] at h
        injection h with h1
        injection h1 with hi hp
        subst hi
        subst hp
        rw [show modifyIdx f (q :: rest) (j + 1) = q :: modifyIdx f rest j from rfl,
          firstMatch, if_neg hm, ih hfm]
        rfl

/-- Successful construction yields the clamped total limit, partitions with bin
limits derived from it, and aggregate busy count 0. -/
theorem newStrategy_ok {parts : List PredicatePartition} {lim : ℤ}
    {s : PredicatePartitionStrategy}
    (h : NewPredicatePartitionStrategy parts lim = Except.ok s) :
    s.partitions = parts.map (fun p => p.UpdateLimit (max lim 1).toNat) ∧
    s.limit = (max lim 1).toNat ∧ s.busy = 0 := by
  unfold NewPredicatePartitionStrategy at h
  split at h
  · exact Except.noConfusion h
  · split at h
    · exact Except.noConfusion h
    · split at h
      · exact Except.noConfusion h
      · split at h
        · exact Except.noConfusion h
        · injection h with h1
          subst h1
          exact ⟨rfl, rfl, rfl⟩

/-- Recomputing bin limits does not change the busy sum. -/
theorem sumBusy_map_updateLimit (parts : List PredicatePartition) (n : ℕ) :
    sumBusy (parts.map (fun p => p.UpdateLimit n)) = sumBusy parts := by
  unfold sumBusy
  rw [List.map_map]
  rfl

/-- The derived bin limit, as an integer, is the spec's
`max(1, round(percent * totalLimit))`. -/
theorem updateLimit_limit_int (q : PredicatePartition) (t : ℕ) :
    ((q.UpdateLimit t).limit : ℤ) = max 1 (roundHalfUp (q.percent * t)) := by
  unfold PredicatePartition.UpdateLimit computeBinLimit
  rw [roundHalfUpMul_eq]
  exact Int.toNat_of_nonneg (le_trans zero_le_one (le_max_left 1 _))

/-- If no partition matches the context, `firstMatch` finds nothing. -/
theorem firstMatch_eq_none {ps : List PredicatePartition} {ctx : Context}
    (h : ∀ p ∈ ps, p.matches ctx = false) : firstMatch ps ctx = none := by
  induction ps with
  | nil => rfl
  | cons q rest ih =>
    rw [firstMatch, if_neg (by simp [h q (List.mem_cons_self q rest)]),
      ih fun p hp => h p (List.mem_cons_of_mem q hp)]
    rfl

/-- `TryAcquire` preserves the busy-conservation invariant. -/
theorem tryAcquire_busy_inv {s : PredicatePartitionStrategy} (ctx : Context)
    (h : s.busy = sumBusy s.partitions) :
    (s.TryAcquire ctx).1.busy = sumBusy (s.TryAcquire ctx).1.partitions := by
  unfold PredicatePartitionStrategy.TryAcquire
  cases hfm : firstMatch s.partitions ctx with
  | none => simpa using h
  | some x =>
    obtain ⟨i, p⟩ := x
    dsimp only
    by_cases hc : p.limit ≤ p.busy ∧ s.limit ≤ s.busy
    · rw [if_pos hc]
      exact h
    · rw [if_neg hc]
      dsimp only
      rw [h, sumBusy_modifyIdx_acquire (firstMatch_getElem hfm)]

/-- `Release` preserves the busy-conservation invariant. -/
theorem release_busy_inv {s : PredicatePartitionStrategy} (i : ℕ)
    (h : s.busy = sumBusy s.partitions) :
    (s.Release i).busy = sumBusy (s.Release i).partitions := by
  unfold PredicatePartitionStrategy.Release
  cases hg : s.partitions[i]? with
  | none => simpa using h
  | some p =>
    dsimp only
    by_cases hb : 0 < p.busy
    · rw [if_pos hb]
      dsimp only
      have := sumBusy_modifyIdx_release hg hb
      omega
    · rw [if_neg hb]
      exact h

/-- Every single operation preserves the busy-conservation invariant. -/
theorem applyOp_busy_inv (s : PredicatePartitionStrategy) (op : Op)
    (h : s.busy = sumBusy s.partitions) :
    (applyOp s op).busy = sumBusy (applyOp s op).partitions := by
  cases op with
  | tryAcquire ctx => exact tryAcquire_busy_inv ctx h
  | release i => exact release_busy_inv i h

/-- Operation sequences preserve the busy-conservation invariant. -/
theorem applyOps_busy_inv (ops : List Op) (s : PredicatePartitionStrategy)
    (h : s.busy = sumBusy s.partitions) :
    (applyOps s ops).busy = sumBusy (applyOps s ops).partitions := by
  induction ops generalizing s with
  | nil => exact h
  | cons op rest ih => exact ih _ (applyOp_busy_inv s op h)

/-- The denominator accumulated by `sumFrac` is positive. -/
theorem sumFrac_den_pos (ps : List PredicatePartition) : 0 < (sumFrac ps).2 := by
  induction ps with
  | nil => simp [sumFrac]
  | cons p rest ih =>
    simp only [sumFrac]
    exact mul_pos (Int.natCast_pos.mpr p.percent.pos) ih

/-- `sumFrac` represents the exact rational sum of the percent shares. -/
theorem sumFrac_num_eq (ps : List PredicatePartition) :
    ((sumFrac ps).1 : ℚ)
      = (ps.map PredicatePartition.percent).sum * ((sumFrac ps).2 : ℚ) := by
  induction ps with
  | nil => simp [sumFrac]
  | cons p rest ih =>
    have hden : ((p.percent.den : ℚ)) ≠ 0 := Nat.cast_ne_zero.mpr p.percent.den_nz
    have hq : (p.percent.num : ℚ) = p.percent * p.percent.den :=
      (div_eq_iff hden).mp (Rat.num_div_den p.percent)
    simp only [sumFrac, List.map_cons, List.sum_cons]
    push_cast
    rw [ih, hq]
    ring

/-- Claim C1 counterexample: in the reachable state where ten "batch"
admissions have driven the aggregate busy count to the total limit 10, a
further `TryAcquire` matching the non-saturated "live" partition is still
admitted and raises the aggregate busy count to 11 — so neither is every call
rejected once the busy count reaches `totalLimit`, nor is the number of
outstanding tokens bounded by `totalLimit`. -/
theorem global_cap_counterexample :
    (acquireN testStrategy10 ctxBatch 10).BusyCount = 10 ∧
    (acquireN testStrategy10 ctxBatch 10).Limit = 10 ∧
    ((acquireN testStrategy10 ctxBatch 10).TryAcquire ctxLive).2
        = some { acquired := true, partitionIndex := 1 } ∧
    ((acquireN testStrategy10 ctxBatch 10).TryAcquire ctxLive).1.BusyCount = 11 := by
  decide

/-- Claim C1 (amended): once the aggregate busy count has reached the total
limit AND every partition has reached its own bin limit, every further
`TryAcquire` — regardless of partition — is rejected with no token and no
state change; a call matching a partition below its bin limit may still be
admitted at the global cap, so the strategy can exceed `totalLimit`. -/
theorem global_cap_amended {s : PredicatePartitionStrategy} (ctx : Context)
    (hglobal : s.limit ≤ s.busy)
    (hall : ∀ p ∈ s.partitions, p.limit ≤ p.busy) :
    s.TryAcquire ctx = (s, none) := by
  unfold PredicatePartitionStrategy.TryAcquire
  cases hfm : firstMatch s.partitions ctx with
  | none => rfl
  | some x =>
    obtain ⟨i, p⟩ := x
    dsimp only
    have hp : p ∈ s.partitions := List.getElem?_mem (firstMatch_getElem hfm)
    rw [if_pos ⟨hall p hp, hglobal⟩]

/-- Claim C1 (amended) witness: the fully saturated test state rejects both
contexts. -/
theorem global_cap_amended_witness :
    (fullState.limit ≤ fullState.busy ∧ ∀ p ∈ fullState.partitions, p.limit ≤ p.busy) ∧
    fullState.TryAcquire ctxBatch = (fullState, none) ∧
    fullState.TryAcquire ctxLive = (fullState, none) :=
  ⟨⟨by decide, by decide⟩,
   global_cap_amended ctxBatch (by decide) (by decide),
   global_cap_amended ctxLive (by decide) (by decide)⟩

/-- Claim C2: with partitions 0.3/0.7 and total limit 10, ten consecutive
"batch" acquisitions all succeed, driving the batch partition's busy count
through 1..10 (beyond its own bin limit of 3, borrowing idle capacity), and
the 11th such call is rejected with no token. -/
theorem borrow_until_total_limit :
    testStrategy10.BinLimit 0 = Except.ok 3 ∧
    (∀ n ∈ List.range 10,
      ((acquireN testStrategy10 ctxBatch n).TryAcquire ctxBatch).2
          = some { acquired := true, partitionIndex := 0 } ∧
      (acquireN testStrategy10 ctxBatch (n + 1)).BinBusyCount 0 = Except.ok (n + 1)) ∧
    ((acquireN testStrategy10 ctxBatch 10).TryAcquire ctxBatch).2 = none := by
  decide

/-- Claim C3: on a strategy constructed from fresh partitions, after any
sequence of TryAcquire/Release operations the aggregate `BusyCount` equals the
sum of the partitions' busy counts — at every intermediate state, since every
prefix of a sequence is itself a sequence. -/
theorem busy_count_conservation {parts : List PredicatePartition} {lim : ℤ}
    {s₀ : PredicatePartitionStrategy}
    (hbuild : NewPredicatePartitionStrategy parts lim = Except.ok s₀)
    (hfresh : ∀ p ∈ parts, p.busy = 0) (ops : List Op) :
    (applyOps s₀ ops).BusyCount = sumBusy (applyOps s₀ ops).partitions := by
  obtain ⟨hparts, -, hbusy⟩ := newStrategy_ok hbuild
  have h0 : s₀.busy = sumBusy s₀.partitions := by
    rw [hbusy, hparts, sumBusy_map_updateLimit]
    symm
    unfold sumBusy
    rw [List.sum_eq_zero_iff]
    intro x hx
    obtain ⟨p, hp, rfl⟩ := List.mem_map.mp hx
    exact hfresh p hp
  exact applyOps_busy_inv ops s₀ h0

/-- Claim C3 witness: the test strategy, driven through a demonstration trace
of acquisitions, releases, a non-matching request and an out-of-range release. -/
theorem busy_count_conservation_witness :
    (NewPredicatePartitionStrategy makeTestPartitions 1 = Except.ok testStrategy1 ∧
     ∀ p ∈ makeTestPartitions, p.busy = 0) ∧
    (applyOps testStrategy1 demoOps).BusyCount
      = sumBusy (applyOps testStrategy1 demoOps).partitions :=
  ⟨⟨rfl, by decide⟩,
   @busy_count_conservation makeTestPartitions 1 testStrategy1 rfl (by decide) demoOps⟩

/-- Claim C7: a manually-set limit ignores every sample window — including one
holding dropped samples — leaving both its state and `EstimatedLimit` intact;
mirrored concretely on the `TestSettableLimit` scenario, where only `SetLimit`
changed the value. -/
theorem settable_update_inert (l : SettableLimit) (w : ImmutableSampleWindow)
    (k : ℕ) :
    (l.Update w).1 = l ∧
    (l.Update w).2 = l.EstimatedLimit ∧
    (l.Update w).1.EstimatedLimit = l.EstimatedLimit ∧
    (l.Update (w.AddDroppedSample k)).1.EstimatedLimit = l.EstimatedLimit ∧
    (((NewSettableLimit 10).SetLimit 5).Update
        (NewDefaultImmutableSampleWindow.AddDroppedSample 1)).1.EstimatedLimit = 5 :=
  ⟨rfl, rfl, rfl, rfl, rfl⟩

/-- Claim C4: setting any total limit `n` gives every partition the derived
bin limit `max(1, round(percent * effectiveTotal))` where the effective total
is `max n 1`; concretely, the 0.3/0.7 partitions get bin limits 3 and 7 at
total limit 10, and the 0.3 partition gets 6 at total limit 20. -/
theorem bin_limit_proportional (s : PredicatePartitionStrategy) (n : ℤ) (i : ℕ)
    (q : PredicatePartition) (hq : s.partitions[i]? = some q) :
    (s.SetLimit n).partitions[i]? = some (q.UpdateLimit (max n 1).toNat) ∧
    ((q.UpdateLimit (max n 1).toNat).limit : ℤ)
        = max 1 (roundHalfUp (q.percent * ((max n 1).toNat : ℚ))) ∧
    testStrategy10.BinLimit 0 = Except.ok 3 ∧
    testStrategy10.BinLimit 1 = Except.ok 7 ∧
    (testStrategy1.SetLimit 20).BinLimit 0 = Except.ok 6 := by
  refine ⟨?_, updateLimit_limit_int q (max n 1).toNat, by decide, by decide, by decide⟩
  unfold PredicatePartitionStrategy.SetLimit
  dsimp only
  rw [List.getElem?_map, hq]
  rfl

/-- Claim C4 witness: the batch partition of the test strategy at total limits
10 and 20. -/
theorem bin_limit_proportional_witness :
    testStrategy1.partitions[0]? = some batchPartition1 ∧
    ((testStrategy1.SetLimit 10).partitions[0]?
        = some (batchPartition1.UpdateLimit (max (10 : ℤ) 1).toNat) ∧
     ((batchPartition1.UpdateLimit (max (10 : ℤ) 1).toNat).limit : ℤ)
        = max 1 (roundHalfUp (batchPartition1.percent * ((max (10 : ℤ) 1).toNat : ℚ))) ∧
     testStrategy10.BinLimit 0 = Except.ok 3 ∧
     testStrategy10.BinLimit 1 = Except.ok 7 ∧
     (testStrategy1.SetLimit 20).BinLimit 0 = Except.ok 6) :=
  ⟨rfl, bin_limit_proportional testStrategy1 10 0 batchPartition1 rfl⟩

/-- Claim C5: in a saturated state (aggregate busy count equal to the total
limit), releasing one token from the busy partition matched by `ctx`
decrements that partition's busy count and the aggregate busy count by exactly
one, and the next `TryAcquire` for the same context succeeds, restoring both
counts to their pre-release values. -/
theorem release_frees_one_slot {s : PredicatePartitionStrategy} {ctx : Context}
    {i : ℕ} {p : PredicatePartition}
    (hmatch : firstMatch s.partitions ctx = some (i, p))
    (hpbusy : 0 < p.busy) (hsbusy : 0 < s.busy) (hsat : s.busy = s.limit) :
    (s.Release i).busy + 1 = s.busy ∧
    ((s.Release i).partitions[i]?).map PredicatePartition.busy = some (p.busy - 1) ∧
    ((s.Release i).TryAcquire ctx).2 = some { acquired := true, partitionIndex := i } ∧
    ((s.Release i).TryAcquire ctx).1.busy = s.busy ∧
    (((s.Release i).TryAcquire ctx).1.partitions[i]?).map PredicatePartition.busy
        = some p.busy := by
  have hget := firstMatch_getElem hmatch
  have hrel : s.Release i =
      { partitions := modifyIdx PredicatePartition.release s.partitions i
        limit := s.limit, busy := s.busy - 1 } := by
    unfold PredicatePartitionStrategy.Release
    rw [hget]
    dsimp only
    rw [if_pos hpbusy]
  have hfm2 : firstMatch (modifyIdx PredicatePartition.release s.partitions i) ctx
      = some (i, p.release) :=
    @firstMatch_modifyIdx PredicatePartition.release (fun _ => rfl)
      s.partitions ctx i p hmatch
  have hta : (s.Release i).TryAcquire ctx =
      ({ partitions := modifyIdx PredicatePartition.acquire
            (modifyIdx PredicatePartition.release s.partitions i) i
         limit := s.limit, busy := (s.busy - 1) + 1 },
       some { acquired := true, partitionIndex := i }) := by
    rw [hrel]
    unfold PredicatePartitionStrategy.TryAcquire
    dsimp only
    rw [hfm2]
    dsimp only
    rw [if_neg]
    rintro ⟨-, h2⟩
    omega
  refine ⟨?_, ?_, ?_, ?_, ?_⟩
  · rw [hrel]
    dsimp only
    omega
  · rw [hrel]
    dsimp only
    rw [getElem_modifyIdx_self PredicatePartition.release hget]
    rfl
  · rw [hta]
  · rw [hta]
    dsimp only
    omega
  · rw [hta]
    dsimp only
    rw [getElem_modifyIdx_self PredicatePartition.acquire
      (getElem_modifyIdx_self PredicatePartition.release hget)]
    have : ((p.release).acquire).busy = p.busy := by
      unfold PredicatePartition.acquire PredicatePartition.release
      dsimp only
      omega
    rw [Option.map_some', this]

/-- Claim C5 witness: a saturated one-partition state with two outstanding
tokens. -/
theorem release_frees_one_slot_witness :
    (firstMatch tinyState.partitions ctxA = some (0, tinyPartition) ∧
     0 < tinyPartition.busy ∧ 0 < tinyState.busy ∧ tinyState.busy = tinyState.limit) ∧
    ((tinyState.Release 0).busy + 1 = tinyState.busy ∧
     ((tinyState.Release 0).partitions[0]?).map PredicatePartition.busy
        = some (tinyPartition.busy - 1) ∧
     ((tinyState.Release 0).TryAcquire ctxA).2
        = some { acquired := true, partitionIndex := 0 } ∧
     ((tinyState.Release 0).TryAcquire ctxA).1.busy = tinyState.busy ∧
     (((tinyState.Release 0).TryAcquire ctxA).1.partitions[0]?).map PredicatePartition.busy
        = some tinyPartition.busy) :=
  ⟨⟨rfl, by decide, by decide, by decide⟩,
   release_frees_one_slot rfl (by decide) (by decide) (by decide)⟩

/-- Claim C6 counterexample: the strategy's debug string does not follow the
claimed literal template `PartitionStrategy{partitions=[...], limit=..., busy=...}`
on the constructed test strategy. -/
theorem strategy_string_counterexample :
    testStrategy1.toDebugString ≠
      "PartitionStrategy\x7bpartitions=["
        ++ String.intercalate " "
            (testStrategy1.partitions.map PredicatePartition.toDebugString)
        ++ "], limit=1, busy=0\x7d" := by
  decide

/-- Claim C6 (amended): the strategy's debug string follows the template with
the literal prefix `PredicatePartitionStrategy` (not `PartitionStrategy`),
joining each partition's own debug string; on the constructed test strategy it
equals the exact literal asserted by the `NewPredicatePartition` conformance
test. -/
theorem strategy_string_amended :
    (∀ s : PredicatePartitionStrategy,
      s.toDebugString = "PredicatePartitionStrategy\x7bpartitions=["
        ++ String.intercalate " " (s.partitions.map PredicatePartition.toDebugString)
        ++ "], limit=" ++ toString s.limit ++ ", busy=" ++ toString s.busy ++ "\x7d") ∧
    testStrategy1.toDebugString =
      "PredicatePartitionStrategy\x7bpartitions=[PredicatePartition\x7bname=batch, percent=0.300000, limit=1, busy=0\x7d PredicatePartition\x7bname=live, percent=0.700000, limit=1, busy=0\x7d], limit=1, busy=0\x7d" :=
  ⟨fun _ => rfl, by decide⟩

/-- Claim C8: `SetLimit(n)` stores `max(n, 1)` as the total limit (any `n ≤ 0`
gives an effective total limit of 1), recomputes every partition's derived bin
limit, and leaves every partition's busy count and the aggregate busy count
unchanged. -/
theorem set_limit_clamps_and_reserves_busy (s : PredicatePartitionStrategy)
    (n : ℤ) (i : ℕ) (q : PredicatePartition) (hq : s.partitions[i]? = some q) :
    ((s.SetLimit n).limit : ℤ) = max n 1 ∧
    (s.SetLimit n).busy = s.busy ∧
    (s.SetLimit n).partitions.map PredicatePartition.busy
        = s.partitions.map PredicatePartition.busy ∧
    (s.SetLimit n).partitions[i]? = some (q.UpdateLimit (max n 1).toNat) ∧
    ((q.UpdateLimit (max n 1).toNat).limit : ℤ)
        = max 1 (roundHalfUp (q.percent * ((max n 1).toNat : ℚ))) ∧
    (q.UpdateLimit (max n 1).toNat).busy = q.busy := by
  refine ⟨Int.toNat_of_nonneg (le_trans zero_le_one (le_max_right n 1)), rfl, ?_, ?_,
    updateLimit_limit_int q (max n 1).toNat, rfl⟩
  · unfold PredicatePartitionStrategy.SetLimit
    dsimp only
    rw [List.map_map]
    rfl
  · unfold PredicatePartitionStrategy.SetLimit
    dsimp only
    rw [List.getElem?_map, hq]
    rfl

/-- Claim C8 witness: `SetLimit(-10)` on the test strategy clamps to 1 and
reserves the batch partition's busy count. -/
theorem set_limit_clamps_and_reserves_busy_witness :
    testStrategy1.partitions[0]? = some batchPartition1 ∧
    (((testStrategy1.SetLimit (-10)).limit : ℤ) = max (-10) 1 ∧
     (testStrategy1.SetLimit (-10)).busy = testStrategy1.busy ∧
     (testStrategy1.SetLimit (-10)).partitions.map PredicatePartition.busy
        = testStrategy1.partitions.map PredicatePartition.busy ∧
     (testStrategy1.SetLimit (-10)).partitions[0]?
        = some (batchPartition1.UpdateLimit (max (-10 : ℤ) 1).toNat) ∧
     ((batchPartition1.UpdateLimit (max (-10 : ℤ) 1).toNat).limit : ℤ)
        = max 1 (roundHalfUp (batchPartition1.percent * ((max (-10 : ℤ) 1).toNat : ℚ))) ∧
     (batchPartition1.UpdateLimit (max (-10 : ℤ) 1).toNat).busy = batchPartition1.busy) :=
  ⟨rfl, set_limit_clamps_and_reserves_busy testStrategy1 (-10) 0 batchPartition1 rfl⟩

/-- Claim C9: construction succeeds exactly when the partition list is
non-empty, every matcher is present, every percent lies in `(0, 1]`, and the
percents sum to at most 1; in every other case it fails with a configuration
error and returns no strategy. -/
theorem construction_validation (parts : List PredicatePartition) (lim : ℤ) :
    (∃ s, NewPredicatePartitionStrategy parts lim = Except.ok s) ↔
      (parts ≠ [] ∧
       (∀ p ∈ parts, p.matcher.isSome = true ∧ 0 < p.percent ∧ p.percent ≤ 1) ∧
       (parts.map PredicatePartition.percent).sum ≤ 1) := by
  have hdpos : (0 : ℚ) < ((sumFrac parts).2 : ℚ) := by
    exact_mod_cast sumFrac_den_pos parts
  have hnum := sumFrac_num_eq parts
  have hsum : (sumFrac parts).2 < (sumFrac parts).1 ↔
      1 < (parts.map PredicatePartition.percent).sum := by
    constructor
    · intro h
      have h2 : ((sumFrac parts).2 : ℚ) < ((sumFrac parts).1 : ℚ) := by exact_mod_cast h
      rw [hnum] at h2
      exact (mul_lt_mul_right hdpos).mp (by rwa [one_mul])
    · intro h
      have h2 : ((sumFrac parts).2 : ℚ) < ((sumFrac parts).1 : ℚ) := by
        rw [hnum]
        have := (mul_lt_mul_right hdpos).mpr h
        rwa [one_mul] at this
      exact_mod_cast h2
  unfold NewPredicatePartitionStrategy
  by_cases hA : parts.isEmpty = true
  · rw [if_pos hA]
    constructor
    · rintro ⟨s, hs⟩
      exact Except.noConfusion hs
    · rintro ⟨hne, -, -⟩
      exact absurd (List.isEmpty_iff.mp hA) hne
  · rw [if_neg hA]
    by_cases hB : parts.any (fun p => p.matcher.isNone) = true
    · rw [if_pos hB]
      constructor
      · rintro ⟨s, hs⟩
        exact Except.noConfusion hs
      · rintro ⟨-, hall, -⟩
        obtain ⟨p, hp, hpn⟩ := List.any_eq_true.mp hB
        have hps := (hall p hp).1
        rw [Option.isNone_iff_eq_none] at hpn
        rw [hpn] at hps
        simp at hps
    · rw [if_neg hB]
      by_cases hC : parts.any (fun p => decide (p.percent ≤ 0 ∨ 1 < p.percent)) = true
      · rw [if_pos hC]
        constructor
        · rintro ⟨s, hs⟩
          exact Except.noConfusion hs
        · rintro ⟨-, hall, -⟩
          obtain ⟨p, hp, hpd⟩ := List.any_eq_true.mp hC
          rw [decide_eq_true_iff] at hpd
          obtain ⟨-, hpos, hle⟩ := hall p hp
          rcases hpd with h | h
          · exact absurd hpos (not_lt.mpr h)
          · exact absurd hle (not_le.mpr h)
      · rw [if_neg hC]
        by_cases hD : (sumFrac parts).2 < (sumFrac parts).1
        · rw [if_pos hD]
          constructor
          · rintro ⟨s, hs⟩
            exact Except.noConfusion hs
          · rintro ⟨-, -, hs1⟩
            exact absurd (hsum.mp hD) (not_lt.mpr hs1)
        · rw [if_neg hD]
          constructor
          · rintro -
            refine ⟨?_, ?_, ?_⟩
            · intro hnil
              exact hA (by rw [hnil]; rfl)
            · intro p hp
              refine ⟨?_, ?_, ?_⟩
              · cases hm : p.matcher with
                | none =>
                  exact absurd (List.any_eq_true.mpr ⟨p, hp, by rw [hm]; rfl⟩) hB
                | some f => rfl
              · by_contra hpos
                exact hC (List.any_eq_true.mpr
                  ⟨p, hp, decide_eq_true (Or.inl (not_lt.mp hpos))⟩)
              · by_contra hle
                exact hC (List.any_eq_true.mpr
                  ⟨p, hp, decide_eq_true (Or.inr (not_le.mp hle))⟩)
            · by_contra hgt
              exact hD (hsum.mpr (not_le.mp hgt))
          · rintro -
            exact ⟨_, rfl⟩

/-- Helper for the C10 witness: every partition of the test strategy carries a
string-predicate matcher. -/
theorem testStrategy1_matchers :
    ∀ p ∈ testStrategy1.partitions,
      ∃ m c, p.matcher = some (StringPredicateMatcher m c) := by
  intro p hp
  have hps : testStrategy1.partitions = [batchPartition1, livePartition1] := rfl
  rw [hps] at hp
  simp only [List.mem_cons, List.not_mem_nil, or_false] at hp
  rcases hp with rfl | rfl
  · exact ⟨"batch", false, rfl⟩
  · exact ⟨"live", false, rfl⟩

/-- Claim C10: a matcher built by `StringPredicateMatcher` evaluates to false
whenever the classification key is absent or holds a non-string value, so on a
strategy whose partitions all use string-predicate matchers such a request
matches no partition and `TryAcquire` deterministically rejects it with no
token and no state change. -/
theorem no_match_rejects (ms : String) (ci : Bool) (ctx : Context)
    (s : PredicatePartitionStrategy)
    (hctx : ctx.stringPredicateValue = none ∨
      ∃ t, ctx.stringPredicateValue = some (CtxValue.nonString t))
    (hparts : ∀ p ∈ s.partitions,
      ∃ m c, p.matcher = some (StringPredicateMatcher m c)) :
    StringPredicateMatcher ms ci ctx = false ∧ s.TryAcquire ctx = (s, none) := by
  have hmatcher : ∀ m c, StringPredicateMatcher m c ctx = false := by
    intro m c
    unfold StringPredicateMatcher
    rcases hctx with h | ⟨t, h⟩ <;> rw [h]
  refine ⟨hmatcher ms ci, ?_⟩
  have hfm : firstMatch s.partitions ctx = none := by
    apply firstMatch_eq_none
    intro p hp
    obtain ⟨m, c, hm⟩ := hparts p hp
    unfold PredicatePartition.matches
    rw [hm]
    exact hmatcher m c
  unfold PredicatePartitionStrategy.TryAcquire
  rw [hfm]

/-- Claim C10 witness: a context missing the key and a context holding a
non-string value are both rejected by the test strategy without state change. -/
theorem no_match_rejects_witness :
    ((ctxNone.stringPredicateValue = none ∨
        ∃ t, ctxNone.stringPredicateValue = some (CtxValue.nonString t)) ∧
     (ctxWrongType.stringPredicateValue = none ∨
        ∃ t, ctxWrongType.stringPredicateValue = some (CtxValue.nonString t))) ∧
    (StringPredicateMatcher "batch" false ctxNone = false ∧
      testStrategy1.TryAcquire ctxNone = (testStrategy1, none)) ∧
    (StringPredicateMatcher "batch" true ctxWrongType = false ∧
      testStrategy1.TryAcquire ctxWrongType = (testStrategy1, none)) :=
  ⟨⟨Or.inl rfl, Or.inr ⟨0, rfl⟩⟩,
   no_match_rejects "batch" false ctxNone testStrategy1 (Or.inl rfl)
     testStrategy1_matchers,
   no_match_rejects "batch" true ctxWrongType testStrategy1 (Or.inr ⟨0, rfl⟩)
     testStrategy1_matchers⟩

end ConcurrencyLimits
